import Mathlib

/-!
Verification of the audio processing core of `hvc/audio.py`
(spectrogram construction, amplitude segmentation, and syllable
extraction).  Numeric values are modelled over `ℚ`; numpy arrays are
modelled as lists, with index errors surfaced through `Option`/`Except`.
-/

set_option maxRecDepth 4000

namespace HVC

/-- Conversion of a Python/numpy boolean to the integer it contributes to
an arithmetic operation (`True` ↦ 1, `False` ↦ 0). -/
def boolToInt (b : Bool) : ℤ := if b then 1 else 0

/-- Embedding of `np.convolve([1, -1], b)` for a boolean vector `b` of
length `n`: the full convolution has length `n + 1` and entry `k` equals
`b[k] - b[k-1]` with out-of-range entries read as 0. -/
def convEdge (b : List Bool) : List ℤ :=
  List.zipWith (· - ·) (b.map boolToInt ++ [0]) (0 :: b.map boolToInt)

/-- Embedding of `np.nonzero(mask)[0]` for a 1-d boolean mask: the indices
of the `true` entries, in increasing order. -/
def nonzeroIdx : List Bool → List ℕ
  | [] => []
  | b :: bs => (if b then [0] else []) ++ (nonzeroIdx bs).map (· + 1)

/-- Embedding of numpy integer fancy indexing `xs[idxs]` at call sites
whose indices are in range by construction; the callers that can reach an
out-of-range index (a numpy `IndexError`) go through [[fancyIdx]] and
return `none` instead. -/
def selIdx {α : Type} (xs : List α) (idxs : List ℕ) : List α :=
  idxs.filterMap (fun i => xs[i]?)

/-- All-or-nothing variant of an elementwise `Option` map: numpy raises
as soon as one element fails, so the whole result is `none` if any
element maps to `none`. -/
def mapOpt {α β : Type} (f : α → Option β) : List α → Option (List β)
  | [] => some []
  | x :: xs =>
      match f x, mapOpt f xs with
      | some y, some ys => some (y :: ys)
      | _, _ => none

/-- Embedding of numpy fancy indexing `xs[idxs]` when an out-of-range
index must surface as an `IndexError`. -/
def fancyIdx {α : Type} (xs : List α) (idxs : List ℕ) : Option (List α) :=
  mapOpt (fun i => xs[i]?) idxs

/-- Embedding of lines 104-108 of `segment_song`: compute the silent gap
durations `onsets[1:] - offsets[:-1]`, build the keep indices
`np.nonzero(silent_gap_durs > min_silent_dur)`, and fancy-index both
arrays with them. -/
def silence_merge (onsets offsets : List ℚ) (min_silent_dur : ℚ) :
    List ℚ × List ℚ :=
  let silent_gap_durs := List.zipWith (· - ·) onsets.tail offsets.dropLast
  let keep_these := nonzeroIdx (silent_gap_durs.map (fun g => decide (min_silent_dur < g)))
  (selIdx onsets keep_these, selIdx offsets keep_these)

/-- Embedding of lines 110-114 of `segment_song`: compute the syllable
durations `offsets - onsets`, build the keep indices
`np.nonzero(syl_durs > min_syl_dur)`, and fancy-index both arrays. -/
def duration_filter (p : List ℚ × List ℚ) (min_syl_dur : ℚ) :
    List ℚ × List ℚ :=
  let syl_durs := List.zipWith (· - ·) p.2 p.1
  let keep_these := nonzeroIdx (syl_durs.map (fun d => decide (min_syl_dur < d)))
  (selIdx p.1 keep_these, selIdx p.2 keep_these)

/-- Embedding of `segment_song` (lines 96-116 of `hvc/audio.py`).
`above_th = amp > threshold` is convolved with `[1, -1]`; onsets are the
time-bin values at the indices where the convolution is positive and
offsets where it is negative.  Indexing `time_bins` out of range (numpy
`IndexError`) yields `none`. -/
def segment_song (amp time_bins : List ℚ) (threshold min_syl_dur min_silent_dur : ℚ) :
    Option (List ℚ × List ℚ) :=
  let above_th := amp.map (fun a => decide (threshold < a))
  let c := convEdge above_th
  let onset_inds := nonzeroIdx (c.map (fun v => decide (0 < v)))
  let offset_inds := nonzeroIdx (c.map (fun v => decide (v < 0)))
  match fancyIdx time_bins onset_inds, fancyIdx time_bins offset_inds with
  | some onsets, some offsets =>
      some (duration_filter (silence_merge onsets offsets min_silent_dur) min_syl_dur)
  | _, _ => none

example : segment_song [0, 6, 0, 0, 7, 0] [0, 1, 2, 3, 4, 5] 5 0 1 = some ([1], [2]) := by
  with_unfolding_all decide

example : segment_song [0, 6, 6, 0, 0, 7, 7, 0, 0, 8, 0] [0, 1, 2, 3, 4, 5, 6, 7, 8, 9, 10]
    5 1 1 = some ([1, 5], [3, 7]) := by with_unfolding_all decide

example : segment_song [6] [0] 5 0 0 = none := by with_unfolding_all decide

/-- Value of one spectrogram cell after the `np.log10` transform.
`np.log10` raises no error: a positive argument gives a finite value
(represented here symbolically by the argument itself, since no claim
inspects the numeric magnitude of a logarithm), `log10 0` is `-inf` and
`log10` of a negative number is `NaN`; numpy only emits a
`RuntimeWarning` in the last two cases and the values flow into the
returned array. -/
inductive LogVal : Type
  | pos (q : ℚ)
  | negInf
  | nan
  deriving DecidableEq

/-- Embedding of elementwise `np.log10` on one power value. -/
def log10 (q : ℚ) : LogVal :=
  if 0 < q then .pos q else if q = 0 then .negInf else .nan

/-- Raw output of `scipy.signal.spectrogram` (line 49 of `hvc/audio.py`):
a frequency axis, a time axis and the power grid, one row per frequency.
The STFT numerics are an external collaborator here; `make_spect`'s own
work starts from this triple.  scipy guarantees `grid` is
`freqs.length × times.length` with `freqs` ascending ([[RawSTFT.WF]]). -/
structure RawSTFT : Type where
  freqs : List ℚ
  times : List ℚ
  grid : List (List ℚ)
  deriving DecidableEq

/-- Well-formedness of a raw STFT triple, guaranteed by scipy: one grid
row per frequency, one grid column per time bin. -/
def RawSTFT.WF (r : RawSTFT) : Prop :=
  r.grid.length = r.freqs.length ∧ ∀ row ∈ r.grid, row.length = r.times.length

/-- The `song_spect` object returned by `make_spect` (lines 8-22 of
`hvc/audio.py`). -/
structure song_spect : Type where
  spect : List (List LogVal)
  freqBins : List ℚ
  timeBins : List ℚ
  sampFreq : ℚ
  deriving DecidableEq

/-- Embedding of `make_spect` (lines 47-66 of `hvc/audio.py`) from the
raw scipy triple on: build the boolean band mask
`(freq_bins >= freq_cutoffs[0]) & (freq_bins < freq_cutoffs[1])`, take
`np.nonzero` of it, fancy-index both the frequency axis and the grid
rows, apply `np.log10` elementwise, and `np.flipud` (reverse the row
order of) both the grid and the frequency axis. -/
def make_spect (raw : RawSTFT) (sampfreq lo hi : ℚ) : song_spect :=
  let f_inds := nonzeroIdx (raw.freqs.map (fun f => decide (lo ≤ f ∧ f < hi)))
  let freq_bins := selIdx raw.freqs f_inds
  let spect := (selIdx raw.grid f_inds).map (fun row => row.map log10)
  { spect := spect.reverse
    freqBins := freq_bins.reverse
    timeBins := raw.times
    sampFreq := sampfreq }

example :
    make_spect ⟨[0, 1000, 2000, 3000, 8000], [0], [[5], [1], [2], [3], [10]]⟩ 32000 1000 8000 =
      ⟨[[.pos 3], [.pos 2], [.pos 1]], [3000, 2000, 1000], [0], 32000⟩ := by
  with_unfolding_all rfl

example :
    make_spect ⟨[1000], [0], [[0]]⟩ 32000 1000 8000 = ⟨[[.negInf]], [1000], [0], 32000⟩ := by
  with_unfolding_all rfl

/-- Python slice endpoint resolution for a sequence of length `n`: a
negative index counts from the end, then the result is clamped into
`[0, n]`. -/
def pyClamp (n : ℕ) (i : ℤ) : ℕ :=
  if i < 0 then (max ((n : ℤ) + i) 0).toNat else min i.toNat n

/-- Embedding of the Python slice `xs[a:b]`. -/
def pySlice {α : Type} (xs : List α) (a b : ℤ) : List α :=
  (xs.take (pyClamp xs.length b)).drop (pyClamp xs.length a)

/-- Number of elements of the Python slice `xs[a:b]` of a sequence of
length `n`; this is how numpy reports `spect[:, a:b].shape[1]`, which
depends only on the column count. -/
def pySliceLen (n : ℕ) (a b : ℤ) : ℕ :=
  pyClamp n b - pyClamp n a

/-- Embedding of Python 3 `int(round(x / 2))` for an integer `x`: `x / 2`
is exact float division, and `round` rounds half-integers to the nearest
even integer (banker's rounding). -/
def pyRoundHalf (x : ℤ) : ℤ :=
  if x % 2 = 0 then x / 2
  else if ((x - 1) / 2) % 2 = 0 then (x - 1) / 2 else (x + 1) / 2

example : pyRoundHalf 4 = 2 := by decide
example : pyRoundHalf 3 = 2 := by decide
example : pyRoundHalf 5 = 2 := by decide
example : pyRoundHalf 1 = 0 := by decide
example : pyRoundHalf (-1) = 0 := by decide
example : pyRoundHalf (-3) = -2 := by decide
example : pyRoundHalf (-5) = -2 := by decide
example : pyRoundHalf (-4) = -2 := by decide

/-- Embedding of `np.abs` on one rational value. -/
def ratAbs (q : ℚ) : ℚ := if q < 0 then -q else q

/-- Embedding of `np.argmin(np.abs(time_bins - t))` (lines 176-179 of
`hvc/audio.py`): index of the first minimal absolute difference;
`np.argmin` raises on an empty array, modelled by `none`.
`i` is the index of the head of the remaining list, `bi`/`bv` the best
index and value so far. -/
def argminAux (t : ℚ) : List ℚ → ℕ → ℕ → ℚ → ℕ
  | [], _, bi, _ => bi
  | y :: ys, i, bi, bv =>
      if ratAbs (y - t) < bv then argminAux t ys (i + 1) i (ratAbs (y - t))
      else argminAux t ys (i + 1) bi bv

/-- First index minimising `|time_bins[i] - t|`, `none` on an empty
array. -/
def argminAbs (time_bins : List ℚ) (t : ℚ) : Option ℕ :=
  match time_bins with
  | [] => none
  | x :: xs => some (argminAux t xs 1 0 (ratAbs (x - t)))

example : argminAbs [0, 1, 2, 3] (3/2) = some 1 := by with_unfolding_all rfl
example : argminAbs [] 5 = none := rfl

/-- Embedding of lines 186-199 of `extract_syls` for one segment: the
width bookkeeping around `syl_spect_width`.  `width_diff` is
`syl_spect_width - spect[:, on:off].shape[1]`; `left_width` is
`int(round(width_diff / 2))` and `right_width` the remainder; then the
`if`/`elif` boundary clamping of the source, left check first. -/
def sylWindow (cols on' off : ℕ) (syl_spect_width : ℕ) : ℤ × ℤ :=
  let width_diff : ℤ := (syl_spect_width : ℤ) - (pySliceLen cols (on' : ℤ) (off : ℤ) : ℤ)
  let left_width := pyRoundHalf width_diff
  let right_width := width_diff - left_width
  if (on' : ℤ) < left_width then ((on' : ℤ), width_diff - (on' : ℤ))
  else if (cols : ℤ) < (off : ℤ) + right_width then
    (width_diff - ((cols : ℤ) - (off : ℤ)), (cols : ℤ) - (off : ℤ))
  else (left_width, right_width)

/-- Embedding of lines 200-201 of `extract_syls`: the final column slice
`spect[:, on - left_width : off + right_width]` of every row. -/
def syl_slice (spect : List (List LogVal)) (cols on' off : ℕ) (syl_spect_width : ℕ) :
    List (List LogVal) :=
  let w := sylWindow cols on' off syl_spect_width
  spect.map (fun row => pySlice row ((on' : ℤ) - w.1) ((off : ℤ) + w.2))

/-- The `spect_params` dictionary consumed by `extract_syls` (lines
128-132 of `hvc/audio.py`). -/
structure SpectParams : Type where
  window_size : ℕ
  window_step : ℕ
  freq_cutoffs : ℚ × ℚ
  samp_freq : ℚ
  deriving DecidableEq

/-- The record returned by the external `load_notmat` collaborator:
parallel label/onset/offset arrays, onsets and offsets in
milliseconds. -/
structure Notmat : Type where
  labels : List Char
  onsets : List ℚ
  offsets : List ℚ
  deriving DecidableEq

/-- The `labels_to_use` argument of `extract_syls`.  Python is
dynamically typed here: the argument is either a string (`str`, a list
of characters once normalised) or already a list of characters; the two
are never equal to each other under Python `==`. -/
inductive LabelsArg : Type
  | str (s : List Char)
  | charList (cs : List Char)
  deriving DecidableEq

/-- Error outcomes of `extract_syls` (each a raised Python exception). -/
inductive ExtractErr : Type
  | sampFreqMismatch
  | emptyTimeBins
  | indexError
  deriving DecidableEq

/-- Embedding of the loop of lines 181-203 of `extract_syls`.  `ind`
tracks `enumerate`; in `'all'` mode every segment is emitted with label
`none`, otherwise a segment whose label is not in the collection is
skipped (`continue`) before any indexing happens.  Indexing
`onsets_time_bins[ind]` or `offsets_time_bins[ind]` out of range raises
`IndexError`. -/
def extractLoop (spect : List (List LogVal)) (cols : ℕ) (onTB offTB : List ℕ)
    (isAll : Bool) (cs : List Char) (syl_spect_width : ℕ) :
    ℕ → List Char → Except ExtractErr (List (List (List LogVal)) × List (Option Char))
  | _, [] => .ok ([], [])
  | ind, label :: rest =>
      if isAll = false ∧ label ∉ cs then
        extractLoop spect cols onTB offTB isAll cs syl_spect_width (ind + 1) rest
      else
        match onTB[ind]?, offTB[ind]? with
        | some on', some off =>
            match extractLoop spect cols onTB offTB isAll cs syl_spect_width (ind + 1) rest with
            | .ok (spects, labs) =>
                .ok (syl_slice spect cols on' off syl_spect_width :: spects,
                     (if isAll then none else some label) :: labs)
            | .error e => .error e
        | _, _ => .error .indexError

/-- Embedding of lines 150-154 of `extract_syls`: if `labels_to_use` is
not the string `'all'`, a string is converted to a list of its
characters; in the non-string branch the source constructs
`ValueError('labels_to_use argument should be a string')` but never
raises it, so a non-string argument passes through unchanged. -/
def normalize_labels_arg (labels_to_use : LabelsArg) : LabelsArg :=
  match labels_to_use with
  | .str s => if s = ['a', 'l', 'l'] then LabelsArg.str s else .charList s
  | .charList cs => .charList cs

/-- The collection Python's `label not in labels_to_use` membership test
runs over after normalisation. -/
def labels_coll : LabelsArg → List Char
  | .str s => s
  | .charList cs => cs

/-- Embedding of `extract_syls` (lines 118-205 of `hvc/audio.py`).  The
external collaborators (`load_cbin`, `load_notmat`, the scipy STFT) are
inputs: `raw` is the scipy triple for the loaded waveform, `fs` the
actual sampling frequency reported by `load_cbin`, `nm` the parsed
`.not.mat` record.  The sampling-frequency check of lines 159-164 runs
before the spectrogram is built or any segment is touched. -/
def extract_syls (raw : RawSTFT) (fs : ℚ) (sp : SpectParams) (nm : Notmat)
    (labels_to_use : LabelsArg) (syl_spect_width : ℕ) :
    Except ExtractErr (List (List (List LogVal)) × List (Option Char)) :=
  let arg := normalize_labels_arg labels_to_use
  if fs ≠ sp.samp_freq then .error .sampFreqMismatch
  else
    let spect_obj := make_spect raw fs sp.freq_cutoffs.1 sp.freq_cutoffs.2
    let spect := spect_obj.spect
    let time_bins := spect_obj.timeBins
    let cols := raw.times.length
    let onsets := nm.onsets.map (fun o => o / 1000)
    let offsets := nm.offsets.map (fun o => o / 1000)
    match mapOpt (argminAbs time_bins) onsets, mapOpt (argminAbs time_bins) offsets with
    | some onTB, some offTB =>
        extractLoop spect cols onTB offTB (decide (arg = .str ['a', 'l', 'l']))
          (labels_coll arg) syl_spect_width 0 nm.labels
    | _, _ => .error .emptyTimeBins

/-! Helper lemmas about the numpy primitives. -/

theorem nonzeroIdx_cons_true (bs : List Bool) :
    nonzeroIdx (true :: bs) = 0 :: (nonzeroIdx bs).map (· + 1) := rfl

theorem nonzeroIdx_cons_false (bs : List Bool) :
    nonzeroIdx (false :: bs) = (nonzeroIdx bs).map (· + 1) := rfl

theorem mem_nonzeroIdx {m : List Bool} {i : ℕ} :
    i ∈ nonzeroIdx m ↔ i < m.length ∧ m.getD i false = true := by
  induction m generalizing i with
  | nil => simp [nonzeroIdx]
  | cons b bs ih =>
      cases i with
      | zero =>
          cases b <;> simp [nonzeroIdx]
      | succ j =>
          cases b with
          | false =>
              rw [nonzeroIdx_cons_false]
              simp only [List.mem_map]
              constructor
              · rintro ⟨a, ha, hj⟩
                obtain rfl : a = j := by omega
                obtain ⟨ha1, ha2⟩ := ih.mp ha
                exact ⟨by simp [ha1], by simpa [List.getD_cons_succ] using ha2⟩
              · rintro ⟨h1, h2⟩
                refine ⟨j, ih.mpr ⟨?_, by simpa [List.getD_cons_succ] using h2⟩, rfl⟩
                simp at h1
                omega
          | true =>
              rw [nonzeroIdx_cons_true]
              simp only [List.mem_cons, List.mem_map]
              constructor
              · rintro (h | ⟨a, ha, hj⟩)
                · exact absurd h (Nat.succ_ne_zero j)
                · obtain rfl : a = j := by omega
                  obtain ⟨ha1, ha2⟩ := ih.mp ha
                  exact ⟨by simp [ha1], by simpa [List.getD_cons_succ] using ha2⟩
              · rintro ⟨h1, h2⟩
                refine Or.inr ⟨j, ih.mpr ⟨?_, by simpa [List.getD_cons_succ] using h2⟩, rfl⟩
                simp at h1
                omega

theorem nonzeroIdx_sorted (m : List Bool) : (nonzeroIdx m).Pairwise (· < ·) := by
  induction m with
  | nil => simp [nonzeroIdx]
  | cons b bs ih =>
      have hmap : ((nonzeroIdx bs).map (· + 1)).Pairwise (· < ·) := by
        rw [List.pairwise_map]
        exact ih.imp (fun h => by omega)
      cases b with
      | false => simpa [nonzeroIdx] using hmap
      | true =>
          simp only [nonzeroIdx, if_pos rfl]
          rw [List.pairwise_append]
          refine ⟨by simp, hmap, ?_⟩
          intro x hx y hy
          simp at hx
          rcases List.mem_map.mp hy with ⟨a, _, rfl⟩
          omega

theorem nonzeroIdx_lt_length {m : List Bool} {i : ℕ} (h : i ∈ nonzeroIdx m) : i < m.length :=
  (mem_nonzeroIdx.mp h).1

theorem selIdx_eq_map {α : Type} (xs : List α) (d : α) (idxs : List ℕ)
    (h : ∀ i ∈ idxs, i < xs.length) :
    selIdx xs idxs = idxs.map (fun i => xs.getD i d) := by
  induction idxs with
  | nil => rfl
  | cons i is ih =>
      have hi : i < xs.length := h i (by simp)
      have hget : xs[i]? = some (xs.getD i d) := by
        rw [List.getD_eq_getElem xs d hi, List.getElem?_eq_getElem hi]
      simp only [selIdx, List.filterMap_cons, hget, List.map_cons]
      exact congrArg _ (ih (fun j hj => h j (by simp [hj])))

theorem mapOpt_some_iff {α β : Type} {f : α → Option β} {xs : List α} {ys : List β}
    (h : mapOpt f xs = some ys) :
    ys.length = xs.length ∧ ∀ j (d : α) (e : β), j < xs.length → f (xs.getD j d) = some (ys.getD j e) := by
  induction xs generalizing ys with
  | nil =>
      simp only [mapOpt, Option.some.injEq] at h
      subst h
      exact ⟨rfl, by intro j d e hj; cases hj⟩
  | cons x xs ih =>
      rw [mapOpt] at h
      cases hx : f x with
      | none => rw [hx] at h; cases h
      | some y =>
          cases hrest : mapOpt f xs with
          | none => rw [hx, hrest] at h; cases h
          | some zs =>
              rw [hx, hrest] at h
              cases h
              obtain ⟨hlen, hval⟩ := ih hrest
              refine ⟨by simp [hlen], ?_⟩
              intro j d e hj
              cases j with
              | zero => simpa using hx
              | succ k => simpa using hval k d e (by simpa using hj)

theorem fancyIdx_some {α : Type} {xs ys : List α} {idxs : List ℕ}
    (h : fancyIdx xs idxs = some ys) :
    ys.length = idxs.length ∧
      ∀ j (d : α), j < idxs.length →
        idxs.getD j 0 < xs.length ∧ ys.getD j d = xs.getD (idxs.getD j 0) d := by
  obtain ⟨hlen, hval⟩ := mapOpt_some_iff h
  refine ⟨hlen, ?_⟩
  intro j d hj
  have := hval j 0 d hj
  have hlt : idxs.getD j 0 < xs.length := by
    by_contra hge
    rw [List.getElem?_eq_none (by omega)] at this
    cases this
  refine ⟨hlt, ?_⟩
  rw [List.getElem?_eq_getElem hlt] at this
  rw [List.getD_eq_getElem xs d hlt]
  exact (Option.some.inj this).symm

theorem mapOpt_none {α β : Type} {f : α → Option β} {xs : List α} {x : α}
    (hmem : x ∈ xs) (hnone : f x = none) : mapOpt f xs = none := by
  induction xs with
  | nil => cases hmem
  | cons y ys ih =>
      rw [mapOpt]
      rcases List.mem_cons.mp hmem with rfl | hmem
      · rw [hnone]
      · rw [ih hmem]
        cases f y <;> rfl

theorem mapOpt_isSome {α β : Type} {f : α → Option β} {xs : List α}
    (h : ∀ x ∈ xs, (f x).isSome) :
    ∃ ys : List β, mapOpt f xs = some ys ∧ ys.length = xs.length := by
  induction xs with
  | nil => exact ⟨[], rfl, rfl⟩
  | cons x xs ih =>
      obtain ⟨ys, hys, hlen⟩ := ih (fun a ha => h a (by simp [ha]))
      obtain ⟨y, hy⟩ := Option.isSome_iff_exists.mp (h x (by simp))
      exact ⟨y :: ys, by rw [mapOpt, hy, hys], by simp [hlen]⟩

/-! Structure of the edge-detection convolution.  `convFrom p xs` is the
tail of the convolution that remains when the previous boolean value is
`p`; it equals `convEdge` when started from `p = false`. -/

/-- Suffix of the convolution of `[1, -1]` with a boolean vector, given
the boolean value `p` preceding the suffix. -/
def convFrom (p : Bool) : List Bool → List ℤ
  | [] => [0 - boolToInt p]
  | x :: xs => (boolToInt x - boolToInt p) :: convFrom x xs

theorem convFrom_eq_zipWith (xs : List Bool) (p : Bool) :
    List.zipWith (· - ·) (xs.map boolToInt ++ [0]) (boolToInt p :: xs.map boolToInt) =
      convFrom p xs := by
  induction xs generalizing p with
  | nil => rfl
  | cons x xs ih => simpa [convFrom] using ih x

theorem convEdge_eq_convFrom (b : List Bool) : convEdge b = convFrom false b := by
  have := convFrom_eq_zipWith b false
  simpa [convEdge, boolToInt] using this

theorem convEdge_length (b : List Bool) : (convEdge b).length = b.length + 1 := by
  simp [convEdge]

/-- Indices of the rising edges (`conv > 0`) of a boolean vector whose
preceding value is `p`. -/
def risingIdx (p : Bool) (xs : List Bool) : List ℕ :=
  nonzeroIdx ((convFrom p xs).map (fun v => decide (0 < v)))

/-- Indices of the falling edges (`conv < 0`) of a boolean vector whose
preceding value is `p`. -/
def fallingIdx (p : Bool) (xs : List Bool) : List ℕ :=
  nonzeroIdx ((convFrom p xs).map (fun v => decide (v < 0)))

theorem risingIdx_nil (p : Bool) : risingIdx p [] = [] := by
  cases p <;> rfl

theorem fallingIdx_nil (p : Bool) : fallingIdx p [] = if p then [0] else [] := by
  cases p <;> rfl

theorem risingIdx_ff (xs : List Bool) :
    risingIdx false (false :: xs) = (risingIdx false xs).map (· + 1) := rfl

theorem risingIdx_ft (xs : List Bool) :
    risingIdx false (true :: xs) = 0 :: (risingIdx true xs).map (· + 1) := rfl

theorem risingIdx_tf (xs : List Bool) :
    risingIdx true (false :: xs) = (risingIdx false xs).map (· + 1) := rfl

theorem risingIdx_tt (xs : List Bool) :
    risingIdx true (true :: xs) = (risingIdx true xs).map (· + 1) := rfl

theorem fallingIdx_ff (xs : List Bool) :
    fallingIdx false (false :: xs) = (fallingIdx false xs).map (· + 1) := rfl

theorem fallingIdx_ft (xs : List Bool) :
    fallingIdx false (true :: xs) = (fallingIdx true xs).map (· + 1) := rfl

theorem fallingIdx_tf (xs : List Bool) :
    fallingIdx true (false :: xs) = 0 :: (fallingIdx false xs).map (· + 1) := rfl

theorem fallingIdx_tt (xs : List Bool) :
    fallingIdx true (true :: xs) = (fallingIdx true xs).map (· + 1) := rfl

theorem getD_map_succ (l : List ℕ) (i : ℕ) (h : i < l.length) :
    (l.map (· + 1)).getD i 0 = l.getD i 0 + 1 := by
  rw [List.getD_eq_getElem _ _ (by simpa using h), List.getD_eq_getElem _ _ h, List.getElem_map]

/-- Alternation structure of the edge indices.  Starting below threshold
(`p = false`) there are as many rising as falling edges and the `i`-th
rising edge is strictly before the `i`-th falling edge; starting above
threshold (`p = true`) there is one extra falling edge, the one closing
the run in progress. -/
theorem edge_struct (xs : List Bool) :
    ((risingIdx false xs).length = (fallingIdx false xs).length ∧
      (∀ i, i < (risingIdx false xs).length →
        (risingIdx false xs).getD i 0 < (fallingIdx false xs).getD i 0) ∧
      (risingIdx false xs).Pairwise (· < ·)) ∧
    ((fallingIdx true xs).length = (risingIdx true xs).length + 1 ∧
      (∀ i, i < (risingIdx true xs).length →
        (risingIdx true xs).getD i 0 < (fallingIdx true xs).getD (i + 1) 0) ∧
      (risingIdx true xs).Pairwise (· < ·)) := by
  induction xs with
  | nil =>
      refine ⟨⟨?_, ?_, ?_⟩, ⟨?_, ?_, ?_⟩⟩ <;>
        simp [risingIdx_nil, fallingIdx_nil]
  | cons x xs ih =>
      obtain ⟨⟨hfl, hfp, hfs⟩, ⟨htl, htp, hts⟩⟩ := ih
      have pw_map : ∀ l : List ℕ, l.Pairwise (· < ·) → (l.map (· + 1)).Pairwise (· < ·) := by
        intro l hl
        rw [List.pairwise_map]
        exact hl.imp (fun h => by omega)
      constructor
      · -- previous value false
        cases x with
        | false =>
            rw [risingIdx_ff, fallingIdx_ff]
            refine ⟨by simp [hfl], ?_, pw_map _ hfs⟩
            intro i hi
            have hi' : i < (risingIdx false xs).length := by simpa using hi
            rw [getD_map_succ _ _ hi', getD_map_succ _ _ (by omega)]
            have := hfp i hi'
            omega
        | true =>
            rw [risingIdx_ft, fallingIdx_ft]
            refine ⟨by simp [htl], ?_, ?_⟩
            · intro i hi
              cases i with
              | zero =>
                  have h0 : 0 < (fallingIdx true xs).length := by omega
                  rw [List.getD_cons_zero, getD_map_succ _ _ h0]
                  omega
              | succ k =>
                  have hk : k < (risingIdx true xs).length := by
                    simp at hi
                    omega
                  rw [List.getD_cons_succ, getD_map_succ _ _ hk, getD_map_succ _ _ (by omega)]
                  have := htp k hk
                  omega
            · rw [List.pairwise_cons]
              refine ⟨?_, pw_map _ hts⟩
              intro y hy
              rcases List.mem_map.mp hy with ⟨a, _, rfl⟩
              omega
      · -- previous value true
        cases x with
        | true =>
            rw [risingIdx_tt, fallingIdx_tt]
            refine ⟨by simp [htl], ?_, pw_map _ hts⟩
            intro i hi
            have hi' : i < (risingIdx true xs).length := by simpa using hi
            rw [getD_map_succ _ _ hi', getD_map_succ _ _ (by omega)]
            have := htp i hi'
            omega
        | false =>
            rw [risingIdx_tf, fallingIdx_tf]
            refine ⟨by simp [hfl], ?_, pw_map _ hfs⟩
            intro i hi
            have hi' : i < (risingIdx false xs).length := by simpa using hi
            rw [getD_map_succ _ _ hi', List.getD_cons_succ, getD_map_succ _ _ (by omega)]
            have := hfp i hi'
            omega

theorem length_mem_fallingIdx (p : Bool) (xs : List Bool) (h : xs ≠ [])
    (hlast : xs.getLast h = true) : xs.length ∈ fallingIdx p xs := by
  induction xs generalizing p with
  | nil => exact absurd rfl h
  | cons x xs ih =>
      cases xs with
      | nil =>
          simp at hlast
          subst hlast
          cases p <;> simp [fallingIdx_ft, fallingIdx_tt, fallingIdx_nil]
      | cons y ys =>
          have hmem := ih x (by simp) (by rwa [List.getLast_cons (by simp)] at hlast)
          have hmap : (y :: ys).length + 1 ∈ (fallingIdx x (y :: ys)).map (· + 1) :=
            List.mem_map.mpr ⟨(y :: ys).length, hmem, rfl⟩
          cases p <;> cases x <;>
            simp only [fallingIdx_ff, fallingIdx_ft, fallingIdx_tf, fallingIdx_tt,
              List.length_cons, List.mem_cons] <;>
            first
              | exact hmap
              | exact Or.inr hmap

/-! Characterisation of the two keep-mask filtering passes of
`segment_song`. -/

theorem getD_map_of_lt {α β : Type} (f : α → β) (l : List α) (i : ℕ) (d : α) (e : β)
    (h : i < l.length) : (l.map f).getD i e = f (l.getD i d) := by
  rw [List.getD_eq_getElem _ _ (by simpa using h), List.getD_eq_getElem _ _ h, List.getElem_map]

theorem getD_mem {α : Type} {l : List α} {i : ℕ} (d : α) (h : i < l.length) :
    l.getD i d ∈ l := by
  rw [List.getD_eq_getElem _ _ h]
  exact List.getElem_mem h

theorem pairwise_getD {α : Type} {r : α → α → Prop} {l : List α} (h : l.Pairwise r)
    {i j : ℕ} (d : α) (hij : i < j) (hj : j < l.length) : r (l.getD i d) (l.getD j d) := by
  have hi : i < l.length := lt_trans hij hj
  rw [List.getD_eq_getElem _ _ hi, List.getD_eq_getElem _ _ hj]
  have := List.pairwise_iff_get.mp h ⟨i, hi⟩ ⟨j, hj⟩ (Fin.mk_lt_mk.mpr hij)
  simpa using this

/-- One keep-mask pass: fancy-indexing two parallel arrays with
`np.nonzero(map pred w)` keeps, in order, exactly the positions `t`
below `w.length` where the predicate holds, and keeps the two arrays
aligned. -/
theorem filter_pair_struct (u v w : List ℚ) (pred : ℚ → Bool)
    (hu : w.length ≤ u.length) (hv : w.length ≤ v.length) :
    ∃ S : List ℕ, S = nonzeroIdx (w.map pred) ∧ S.Pairwise (· < ·) ∧
      (∀ t ∈ S, t < w.length ∧ pred (w.getD t 0) = true) ∧
      selIdx u (nonzeroIdx (w.map pred)) = S.map (fun i => u.getD i 0) ∧
      selIdx v (nonzeroIdx (w.map pred)) = S.map (fun i => v.getD i 0) := by
  refine ⟨nonzeroIdx (w.map pred), rfl, nonzeroIdx_sorted _, ?_, ?_, ?_⟩
  · intro t ht
    obtain ⟨hlt, hget⟩ := mem_nonzeroIdx.mp ht
    have hlt' : t < w.length := by simpa using hlt
    refine ⟨hlt', ?_⟩
    rwa [getD_map_of_lt pred w t 0 false hlt'] at hget
  · exact selIdx_eq_map u 0 _ (fun i hi => lt_of_lt_of_le
      (by simpa using nonzeroIdx_lt_length hi) hu)
  · exact selIdx_eq_map v 0 _ (fun i hi => lt_of_lt_of_le
      (by simpa using nonzeroIdx_lt_length hi) hv)

theorem silent_gaps_getD (ons0 offs0 : List ℚ) (t : ℕ)
    (h : t < (List.zipWith (· - ·) ons0.tail offs0.dropLast).length) :
    (List.zipWith (· - ·) ons0.tail offs0.dropLast).getD t 0 =
      ons0.getD (t + 1) 0 - offs0.getD t 0 := by
  have h1 : t < ons0.tail.length := by
    rw [List.length_zipWith] at h
    omega
  have h2 : t < offs0.dropLast.length := by
    rw [List.length_zipWith] at h
    omega
  have h1' : t + 1 < ons0.length := by
    rw [List.length_tail] at h1
    omega
  have h2' : t < offs0.length := by
    rw [List.length_dropLast] at h2
    omega
  rw [List.getD_eq_getElem _ _ h, List.getElem_zipWith, List.getElem_tail,
    List.getElem_dropLast, List.getD_eq_getElem _ _ h1', List.getD_eq_getElem _ _ h2']

theorem syl_durs_getD (ons1 offs1 : List ℚ) (t : ℕ)
    (h : t < (List.zipWith (· - ·) offs1 ons1).length) :
    (List.zipWith (· - ·) offs1 ons1).getD t 0 = offs1.getD t 0 - ons1.getD t 0 := by
  have h1 : t < offs1.length := by
    rw [List.length_zipWith] at h
    omega
  have h2 : t < ons1.length := by
    rw [List.length_zipWith] at h
    omega
  rw [List.getD_eq_getElem _ _ h, List.getElem_zipWith, List.getD_eq_getElem _ _ h1,
    List.getD_eq_getElem _ _ h2]

/-- Combined effect of the two filtering passes of `segment_song` on a
pair of equally long raw arrays: the result selects, at a strictly
increasing list of positions `T`, pairs `(onsets[t], offsets[t])` with
`t + 1 < length` whose following silent gap exceeds `min_silent_dur` and
whose own duration exceeds `min_syl_dur`. -/
theorem two_filters_struct (ons0 offs0 : List ℚ) (msil msyl : ℚ)
    (hlen : ons0.length = offs0.length) :
    ∃ T : List ℕ,
      T.Pairwise (· < ·) ∧
      (∀ t ∈ T, t + 1 < ons0.length ∧
        msil < ons0.getD (t + 1) 0 - offs0.getD t 0 ∧
        msyl < offs0.getD t 0 - ons0.getD t 0) ∧
      duration_filter (silence_merge ons0 offs0 msil) msyl =
        (T.map (fun i => ons0.getD i 0), T.map (fun i => offs0.getD i 0)) := by
  have hgaps_len : (List.zipWith (· - ·) ons0.tail offs0.dropLast).length = ons0.length - 1 := by
    rw [List.length_zipWith, List.length_tail, List.length_dropLast, hlen, min_self]
  obtain ⟨S1, hS1def, hS1sort, hS1mem, hS1u, hS1v⟩ :=
    filter_pair_struct ons0 offs0 (List.zipWith (· - ·) ons0.tail offs0.dropLast)
      (fun g => decide (msil < g)) (by omega) (by omega)
  have hsm : silence_merge ons0 offs0 msil =
      (S1.map (fun i => ons0.getD i 0), S1.map (fun i => offs0.getD i 0)) := by
    rw [silence_merge]
    exact Prod.ext hS1u hS1v
  have hdurs_len :
      (List.zipWith (· - ·) (S1.map (fun i => offs0.getD i 0)) (S1.map (fun i => ons0.getD i 0))).length
        = S1.length := by
    rw [List.length_zipWith]
    simp
  obtain ⟨S2, hS2def, hS2sort, hS2mem, hS2u, hS2v⟩ :=
    filter_pair_struct (S1.map (fun i => ons0.getD i 0)) (S1.map (fun i => offs0.getD i 0))
      (List.zipWith (· - ·) (S1.map (fun i => offs0.getD i 0)) (S1.map (fun i => ons0.getD i 0)))
      (fun d => decide (msyl < d)) (by rw [hdurs_len]; simp) (by rw [hdurs_len]; simp)
  have hS2lt : ∀ j ∈ S2, j < S1.length := by
    intro j hj
    have := (hS2mem j hj).1
    omega
  refine ⟨S2.map (fun j => S1.getD j 0), ?_, ?_, ?_⟩
  · rw [List.pairwise_map]
    refine hS2sort.imp_of_mem ?_
    intro a b ha hb hab
    exact pairwise_getD hS1sort 0 hab (hS2lt b hb)
  · intro t ht
    obtain ⟨j, hj, rfl⟩ := List.mem_map.mp ht
    have hjlt : j < S1.length := hS2lt j hj
    have htS1 : S1.getD j 0 ∈ S1 := getD_mem 0 hjlt
    obtain ⟨ht1, ht2⟩ := hS1mem _ htS1
    have hgap := silent_gaps_getD ons0 offs0 _ ht1
    have htn : S1.getD j 0 + 1 < ons0.length := by omega
    refine ⟨htn, by rw [← hgap]; simpa using ht2, ?_⟩
    obtain ⟨hj1, hj2⟩ := hS2mem j hj
    have hdur := syl_durs_getD (S1.map (fun i => ons0.getD i 0))
      (S1.map (fun i => offs0.getD i 0)) j hj1
    rw [hdur] at hj2
    rw [getD_map_of_lt _ _ _ 0 0 hjlt, getD_map_of_lt _ _ _ 0 0 hjlt] at hj2
    simpa using hj2
  · rw [hsm, duration_filter]
    refine Prod.ext ?_ ?_ <;>
      simp only [hS2u, hS2v, List.map_map] <;>
      · refine List.map_congr_left ?_
        intro j hj
        simp only [Function.comp]
        rw [getD_map_of_lt _ _ _ 0 0 (hS2lt j hj)]

/-- C4: for every output `(onsets, offsets)` of `segment_song` on a
strictly increasing `time_bins` axis, the two arrays have equal length;
`offsets[i] > onsets[i]` for every `i`; every kept duration satisfies
`offsets[i] - onsets[i] > min_syl_dur`; and every kept silent gap
satisfies `onsets[i] - offsets[i-1] > min_silent_dur` for `i > 0`. -/
theorem claim_C4 (amp tb : List ℚ) (th msyl msil : ℚ) (ons offs : List ℚ)
    (hsort : tb.Pairwise (· < ·))
    (hres : segment_song amp tb th msyl msil = some (ons, offs)) :
    ons.length = offs.length ∧
    (∀ i, i < ons.length → ons.getD i 0 < offs.getD i 0) ∧
    (∀ i, i < ons.length → msyl < offs.getD i 0 - ons.getD i 0) ∧
    (∀ i, i + 1 < ons.length → msil < ons.getD (i + 1) 0 - offs.getD i 0) := by
  rw [segment_song, convEdge_eq_convFrom] at hres
  rw [show nonzeroIdx ((convFrom false (amp.map (fun a => decide (th < a)))).map
        (fun v => decide (0 < v))) = risingIdx false (amp.map (fun a => decide (th < a)))
      from rfl,
    show nonzeroIdx ((convFrom false (amp.map (fun a => decide (th < a)))).map
        (fun v => decide (v < 0))) = fallingIdx false (amp.map (fun a => decide (th < a)))
      from rfl] at hres
  obtain ⟨⟨hfl, hfp, hfs⟩, -⟩ := edge_struct (amp.map (fun a => decide (th < a)))
  cases hON : fancyIdx tb (risingIdx false (amp.map (fun a => decide (th < a)))) with
  | none => rw [hON] at hres; cases hres
  | some ons0 =>
  cases hOFF : fancyIdx tb (fallingIdx false (amp.map (fun a => decide (th < a)))) with
  | none => rw [hON, hOFF] at hres; cases hres
  | some offs0 =>
  rw [hON, hOFF] at hres
  simp only [Option.some.injEq] at hres
  obtain ⟨hlenR, hvalR⟩ := fancyIdx_some hON
  obtain ⟨hlenF, hvalF⟩ := fancyIdx_some hOFF
  have hlen : ons0.length = offs0.length := by rw [hlenR, hlenF, hfl]
  -- raw pairing and monotonicity
  have hraw_lt : ∀ t, t < ons0.length → ons0.getD t 0 < offs0.getD t 0 := by
    intro t ht
    have htR : t < (risingIdx false (amp.map (fun a => decide (th < a)))).length := by
      rwa [hlenR] at ht
    have htF : t < (fallingIdx false (amp.map (fun a => decide (th < a)))).length := by
      rwa [← hfl]
    obtain ⟨hRtb, hONval⟩ := hvalR t 0 htR
    obtain ⟨hFtb, hOFFval⟩ := hvalF t 0 htF
    rw [hONval, hOFFval]
    exact pairwise_getD hsort 0 (hfp t htR) hFtb
  have hraw_mono : ∀ a b, a ≤ b → b < ons0.length → ons0.getD a 0 ≤ ons0.getD b 0 := by
    intro a b hab hb
    rcases eq_or_lt_of_le hab with rfl | hab'
    · exact le_refl _
    · have hbR : b < (risingIdx false (amp.map (fun a => decide (th < a)))).length := by
        rwa [hlenR] at hb
      have haR : a < (risingIdx false (amp.map (fun a => decide (th < a)))).length :=
        lt_trans hab' hbR
      obtain ⟨hRtb, hONval⟩ := hvalR b 0 hbR
      obtain ⟨hRtb', hONval'⟩ := hvalR a 0 haR
      rw [hONval, hONval']
      exact le_of_lt (pairwise_getD hsort 0 (pairwise_getD hfs 0 hab' hbR) hRtb)
  obtain ⟨T, hTsort, hTmem, hTeq⟩ := two_filters_struct ons0 offs0 msil msyl hlen
  rw [hTeq] at hres
  obtain ⟨hres1, hres2⟩ := Prod.mk.injEq _ _ _ _ ▸ hres
  subst hres1
  subst hres2
  refine ⟨by simp, ?_, ?_, ?_⟩
  · intro i hi
    have hi' : i < T.length := by simpa using hi
    rw [getD_map_of_lt _ _ _ 0 0 hi', getD_map_of_lt _ _ _ 0 0 hi']
    obtain ⟨htn, -, -⟩ := hTmem _ (getD_mem 0 hi')
    exact hraw_lt _ (by omega)
  · intro i hi
    have hi' : i < T.length := by simpa using hi
    rw [getD_map_of_lt _ _ _ 0 0 hi', getD_map_of_lt _ _ _ 0 0 hi']
    obtain ⟨-, -, hdur⟩ := hTmem _ (getD_mem 0 hi')
    exact hdur
  · intro i hi
    have hi1 : i + 1 < T.length := by simpa using hi
    have hi0 : i < T.length := by omega
    rw [getD_map_of_lt _ _ _ 0 0 hi1, getD_map_of_lt _ _ _ 0 0 hi0]
    obtain ⟨htn, hgap, -⟩ := hTmem _ (getD_mem 0 hi0)
    obtain ⟨htn', -, -⟩ := hTmem _ (getD_mem 0 hi1)
    have htt : T.getD i 0 < T.getD (i + 1) 0 := pairwise_getD hTsort 0 (by omega) hi1
    have hmono := hraw_mono (T.getD i 0 + 1) (T.getD (i + 1) 0) (by omega) (by omega)
    linarith

theorem claim_C4_witness :
    ([0, 1, 2, 3, 4, 5, 6, 7, 8, 9, 10] : List ℚ).Pairwise (· < ·) ∧
    segment_song [0, 6, 6, 0, 0, 7, 7, 0, 0, 8, 0] [0, 1, 2, 3, 4, 5, 6, 7, 8, 9, 10] 5 1 1 =
      some ([1, 5], [3, 7]) ∧
    (([1, 5] : List ℚ).length = ([3, 7] : List ℚ).length ∧
      (∀ i, i < ([1, 5] : List ℚ).length →
        ([1, 5] : List ℚ).getD i 0 < ([3, 7] : List ℚ).getD i 0) ∧
      (∀ i, i < ([1, 5] : List ℚ).length →
        (1 : ℚ) < ([3, 7] : List ℚ).getD i 0 - ([1, 5] : List ℚ).getD i 0) ∧
      (∀ i, i + 1 < ([1, 5] : List ℚ).length →
        (1 : ℚ) < ([1, 5] : List ℚ).getD (i + 1) 0 - ([3, 7] : List ℚ).getD i 0)) :=
  ⟨by decide, by with_unfolding_all decide,
    claim_C4 [0, 6, 6, 0, 0, 7, 7, 0, 0, 8, 0] [0, 1, 2, 3, 4, 5, 6, 7, 8, 9, 10] 5 1 1
      [1, 5] [3, 7] (by decide) (by with_unfolding_all decide)⟩

/-- C6: whenever the last amplitude value exceeds the threshold and
`time_bins` has the same length as `amp` (the documented contract), the
full convolution of the above-threshold sequence with `[1, -1]` has
length `len(amp) + 1`, marks a falling edge at index `len(amp)`, and
`segment_song` fails with an out-of-bounds indexing error (modelled by
`none`). -/
theorem claim_C6 (amp tb : List ℚ) (th msyl msil : ℚ) (h1 : amp ≠ [])
    (h2 : th < amp.getLast h1) (h3 : tb.length = amp.length) :
    (convEdge (amp.map (fun a => decide (th < a)))).length = amp.length + 1 ∧
    amp.length ∈ nonzeroIdx ((convEdge (amp.map (fun a => decide (th < a)))).map
      (fun v => decide (v < 0))) ∧
    segment_song amp tb th msyl msil = none := by
  have hmapne : amp.map (fun a => decide (th < a)) ≠ [] := by
    simpa using h1
  have hlast : (amp.map (fun a => decide (th < a))).getLast hmapne = true := by
    rw [List.getLast_map]
    simpa using h2
  have hmem : amp.length ∈ fallingIdx false (amp.map (fun a => decide (th < a))) := by
    have := length_mem_fallingIdx false (amp.map (fun a => decide (th < a))) hmapne hlast
    simpa using this
  have hnone : fancyIdx tb (fallingIdx false (amp.map (fun a => decide (th < a)))) = none := by
    refine mapOpt_none hmem ?_
    exact List.getElem?_eq_none (by omega)
  refine ⟨?_, ?_, ?_⟩
  · rw [convEdge_length]
    simp
  · rw [convEdge_eq_convFrom]
    exact hmem
  · rw [segment_song, convEdge_eq_convFrom]
    rw [show nonzeroIdx ((convFrom false (amp.map (fun a => decide (th < a)))).map
          (fun v => decide (v < 0))) = fallingIdx false (amp.map (fun a => decide (th < a)))
        from rfl]
    rw [hnone]
    cases fancyIdx tb (nonzeroIdx ((convFrom false (amp.map (fun a => decide (th < a)))).map
      (fun v => decide (0 < v)))) <;> rfl

theorem claim_C6_witness :
    (convEdge (([6] : List ℚ).map (fun a => decide ((5 : ℚ) < a)))).length =
      ([6] : List ℚ).length + 1 ∧
    ([6] : List ℚ).length ∈ nonzeroIdx ((convEdge (([6] : List ℚ).map
      (fun a => decide ((5 : ℚ) < a)))).map (fun v => decide (v < 0))) ∧
    segment_song [6] [0] 5 0 0 = none :=
  claim_C6 [6] [0] 5 0 0 (by decide) (by decide) (by decide)

/-! Claim C1: what the gap-merging pass removes. -/

theorem nonzeroIdx_eq_filter_range (m : List Bool) :
    nonzeroIdx m = (List.range m.length).filter (fun i => m.getD i false) := by
  induction m with
  | nil => rfl
  | cons b bs ih =>
      have hmap : List.filter (fun i => (b :: bs).getD i false) ((List.range bs.length).map Nat.succ)
          = ((List.range bs.length).filter (fun i => bs.getD i false)).map Nat.succ := by
        rw [List.filter_map]
        rfl
      rw [nonzeroIdx, List.length_cons, List.range_succ_eq_map, List.filter_cons, hmap, ← ih]
      cases b with
      | false => simp [List.getD_cons_zero, Nat.succ_eq_add_one]
      | true => simp [List.getD_cons_zero, Nat.succ_eq_add_one]

/-- Gap merging as claim C1 describes it, following the words of the
spec.  Modelled from the spec: "drop any (onset,offset) pair whose
following gap is shorter than `minSilentDur` — i.e., short gaps cause
conceptually adjacent segments to be merged by removing the intervening
boundary pair `(offsets[i], onsets[i+1])`": the first onset and the last
offset always survive, and for each silent gap that is long enough the
boundary pair around it survives. -/
def merge_by_boundary_removal (onsets offsets : List ℚ) (min_silent_dur : ℚ) :
    List ℚ × List ℚ :=
  let gaps := List.zipWith (· - ·) onsets.tail offsets.dropLast
  let keep : List Bool := gaps.map (fun g => decide (min_silent_dur < g))
  (onsets.take 1 ++ ((onsets.tail.zip keep).filter (fun p => p.2)).map (fun p => p.1),
   ((offsets.dropLast.zip keep).filter (fun p => p.2)).map (fun p => p.1) ++
     offsets.drop (offsets.length - 1))

/-- C1 is false on the code: on the amplitude `[0,6,0,0,7,0]` over time
bins `[0..5]` the two raw segments are `(1,2)` and `(4,5)` and the single
silent gap `4 - 2 = 2` is longer than `min_silent_dur = 1`, so the claim
says the gap-merging step removes nothing; removing boundary pairs as the
claim describes keeps both segments, but `segment_song` (with a duration
filter that keeps everything) returns only the first segment: the
gap-merging step of the code drops the last `(onset, offset)` pair. -/
theorem claim_C1_counterexample :
    segment_song [0, 6, 0, 0, 7, 0] [0, 1, 2, 3, 4, 5] 5 0 1 = some ([1], [2]) ∧
    silence_merge [1, 4] [2, 5] 1 = ([1], [2]) ∧
    merge_by_boundary_removal [1, 4] [2, 5] 1 = ([1, 4], [2, 5]) ∧
    silence_merge [1, 4] [2, 5] 1 ≠ merge_by_boundary_removal [1, 4] [2, 5] 1 := by
  refine ⟨?_, ?_, ?_, ?_⟩ <;> with_unfolding_all decide

/-- C1 (amended): for equally long onset/offset arrays, the gap-merging
step of `segment_song` keeps exactly the pairs `(onsets[i], offsets[i])`
with `i < len - 1` whose *following* silent gap
`onsets[i+1] - offsets[i]` is strictly longer than `min_silent_dur`, in
order, applying the same keep-mask to both arrays (so they stay aligned
and of equal length); in particular the last pair, which has no
following gap, is always removed. -/
theorem claim_C1_amended (ons offs : List ℚ) (m : ℚ) (hlen : ons.length = offs.length) :
    silence_merge ons offs m =
      (((List.range (ons.length - 1)).filter
          (fun i => decide (m < ons.getD (i + 1) 0 - offs.getD i 0))).map
        (fun i => ons.getD i 0),
       ((List.range (ons.length - 1)).filter
          (fun i => decide (m < ons.getD (i + 1) 0 - offs.getD i 0))).map
        (fun i => offs.getD i 0)) := by
  have hgaps_len : (List.zipWith (· - ·) ons.tail offs.dropLast).length = ons.length - 1 := by
    rw [List.length_zipWith, List.length_tail, List.length_dropLast, hlen, min_self]
  obtain ⟨S1, hS1def, -, -, hS1u, hS1v⟩ :=
    filter_pair_struct ons offs (List.zipWith (· - ·) ons.tail offs.dropLast)
      (fun g => decide (m < g)) (by omega) (by omega)
  have hS1 : S1 = (List.range (ons.length - 1)).filter
      (fun i => decide (m < ons.getD (i + 1) 0 - offs.getD i 0)) := by
    rw [hS1def, nonzeroIdx_eq_filter_range, List.length_map, hgaps_len]
    refine List.filter_congr ?_
    intro i hi
    have hi' : i < (List.zipWith (· - ·) ons.tail offs.dropLast).length := by
      rw [hgaps_len]
      simpa using List.mem_range.mp hi
    rw [getD_map_of_lt _ _ _ 0 false hi', silent_gaps_getD _ _ _ hi']
  rw [silence_merge]
  exact Prod.ext (by rw [hS1u, hS1]) (by rw [hS1v, hS1])

theorem claim_C1_amended_witness :
    ([1, 4] : List ℚ).length = ([2, 5] : List ℚ).length ∧
    silence_merge [1, 4] [2, 5] 1 =
      (((List.range (([1, 4] : List ℚ).length - 1)).filter
          (fun i => decide ((1 : ℚ) < ([1, 4] : List ℚ).getD (i + 1) 0 -
            ([2, 5] : List ℚ).getD i 0))).map
        (fun i => ([1, 4] : List ℚ).getD i 0),
       ((List.range (([1, 4] : List ℚ).length - 1)).filter
          (fun i => decide ((1 : ℚ) < ([1, 4] : List ℚ).getD (i + 1) 0 -
            ([2, 5] : List ℚ).getD i 0))).map
        (fun i => ([2, 5] : List ℚ).getD i 0)) :=
  ⟨rfl, claim_C1_amended [1, 4] [2, 5] 1 rfl⟩

/-! Claims about `make_spect`: the band filter, the flip, and the log
transform. -/

theorem selIdx_cons_succ {α : Type} (x : α) (l : List α) (S : List ℕ) :
    selIdx (x :: l) (S.map (· + 1)) = selIdx l S := by
  rw [selIdx, selIdx, List.filterMap_map]
  refine congrArg (fun f => List.filterMap f S) ?_
  funext i
  simp [Function.comp]

theorem selIdx_nonzero_self {α : Type} (xs : List α) (pred : α → Bool) :
    selIdx xs (nonzeroIdx (xs.map pred)) = xs.filter pred := by
  induction xs with
  | nil => rfl
  | cons x l ih =>
      rw [List.map_cons, nonzeroIdx, selIdx, List.filterMap_append]
      rw [show List.filterMap (fun i => (x :: l)[i]?) ((nonzeroIdx (l.map pred)).map (· + 1)) =
          selIdx l (nonzeroIdx (l.map pred)) from selIdx_cons_succ x l _, ih, List.filter_cons]
      cases hpx : pred x <;> simp [hpx]

theorem selIdx_nonzero_zip {α β : Type} (xs : List α) (ys : List β) (pred : α → Bool)
    (hlen : ys.length = xs.length) :
    selIdx ys (nonzeroIdx (xs.map pred)) =
      ((xs.zip ys).filter (fun p => pred p.1)).map (fun p => p.2) := by
  induction xs generalizing ys with
  | nil =>
      rw [List.length_nil, List.length_eq_zero] at hlen
      subst hlen
      rfl
  | cons x l ih =>
      cases ys with
      | nil => simp at hlen
      | cons y m =>
          have hlen' : m.length = l.length := by simpa using hlen
          rw [List.map_cons, nonzeroIdx, selIdx, List.filterMap_append]
          rw [show List.filterMap (fun i => (y :: m)[i]?) ((nonzeroIdx (l.map pred)).map (· + 1)) =
              selIdx m (nonzeroIdx (l.map pred)) from selIdx_cons_succ y m _, ih m hlen',
            List.zip_cons_cons, List.filter_cons]
          cases hpx : pred x <;> simp [hpx]

theorem zip_filter_fst {α β : Type} (xs : List α) (ys : List β) (pred : α → Bool)
    (hlen : ys.length = xs.length) :
    ((xs.zip ys).filter (fun p => pred p.1)).map (fun p => p.1) = xs.filter pred := by
  induction xs generalizing ys with
  | nil => rfl
  | cons x l ih =>
      cases ys with
      | nil => simp at hlen
      | cons y m =>
          have hlen' : m.length = l.length := by simpa using hlen
          rw [List.zip_cons_cons, List.filter_cons, List.filter_cons]
          cases hpx : pred x <;> simp [hpx, ih m hlen']

theorem mem_selIdx {α : Type} {xs : List α} {idxs : List ℕ} {a : α}
    (h : a ∈ selIdx xs idxs) : a ∈ xs := by
  obtain ⟨i, -, hi⟩ := List.mem_filterMap.mp h
  exact List.getElem?_mem hi

theorem make_spect_freqBins (raw : RawSTFT) (sf lo hi : ℚ) :
    (make_spect raw sf lo hi).freqBins =
      (selIdx raw.freqs (nonzeroIdx (raw.freqs.map (fun f => decide (lo ≤ f ∧ f < hi))))).reverse :=
  rfl

theorem make_spect_spect (raw : RawSTFT) (sf lo hi : ℚ) :
    (make_spect raw sf lo hi).spect =
      ((selIdx raw.grid (nonzeroIdx (raw.freqs.map (fun f => decide (lo ≤ f ∧ f < hi))))).map
        (fun row => row.map log10)).reverse :=
  rfl

theorem make_spect_timeBins (raw : RawSTFT) (sf lo hi : ℚ) :
    (make_spect raw sf lo hi).timeBins = raw.times :=
  rfl

/-- C9: `make_spect` retains exactly the frequency rows whose frequency
`f` satisfies `freq_cutoffs[0] ≤ f < freq_cutoffs[1]` (the output
frequency axis is the band-filtered raw axis, reversed), and on a
well-formed scipy triple the output has one `freq_bins` entry per
spectrogram row and one `time_bins` entry per spectrogram column. -/
theorem claim_C9 (raw : RawSTFT) (sf lo hi : ℚ) (hwf : raw.WF) :
    (∀ f ∈ (make_spect raw sf lo hi).freqBins, lo ≤ f ∧ f < hi) ∧
    (make_spect raw sf lo hi).freqBins =
      (raw.freqs.filter (fun f => decide (lo ≤ f ∧ f < hi))).reverse ∧
    (make_spect raw sf lo hi).freqBins.length = (make_spect raw sf lo hi).spect.length ∧
    (∀ row ∈ (make_spect raw sf lo hi).spect,
      row.length = (make_spect raw sf lo hi).timeBins.length) := by
  have hA := selIdx_nonzero_self raw.freqs (fun f => decide (lo ≤ f ∧ f < hi))
  have hB := selIdx_nonzero_zip raw.freqs raw.grid (fun f => decide (lo ≤ f ∧ f < hi)) hwf.1
  have hfst := zip_filter_fst raw.freqs raw.grid (fun f => decide (lo ≤ f ∧ f < hi)) hwf.1
  refine ⟨?_, ?_, ?_, ?_⟩
  · intro f hf
    rw [make_spect_freqBins, hA, List.mem_reverse, List.mem_filter] at hf
    simpa using hf.2
  · rw [make_spect_freqBins, hA]
  · rw [make_spect_freqBins, make_spect_spect, hA, hB]
    rw [List.length_reverse, List.length_reverse, List.length_map, List.length_map]
    rw [← hfst, List.length_map]
  · intro row hrow
    rw [make_spect_spect, List.mem_reverse, List.mem_map] at hrow
    obtain ⟨orig, horig, rfl⟩ := hrow
    rw [make_spect_timeBins, List.length_map]
    exact hwf.2 orig (mem_selIdx horig)

theorem claim_C9_witness :
    (RawSTFT.WF ⟨[0, 1000, 2000, 3000, 8000], [0], [[5], [1], [2], [3], [10]]⟩) ∧
    ((∀ f ∈ (make_spect ⟨[0, 1000, 2000, 3000, 8000], [0], [[5], [1], [2], [3], [10]]⟩
        32000 1000 8000).freqBins, (1000 : ℚ) ≤ f ∧ f < 8000) ∧
      (make_spect ⟨[0, 1000, 2000, 3000, 8000], [0], [[5], [1], [2], [3], [10]]⟩
          32000 1000 8000).freqBins =
        (([0, 1000, 2000, 3000, 8000] : List ℚ).filter
          (fun f => decide ((1000 : ℚ) ≤ f ∧ f < 8000))).reverse ∧
      (make_spect ⟨[0, 1000, 2000, 3000, 8000], [0], [[5], [1], [2], [3], [10]]⟩
          32000 1000 8000).freqBins.length =
        (make_spect ⟨[0, 1000, 2000, 3000, 8000], [0], [[5], [1], [2], [3], [10]]⟩
          32000 1000 8000).spect.length ∧
      (∀ row ∈ (make_spect ⟨[0, 1000, 2000, 3000, 8000], [0], [[5], [1], [2], [3], [10]]⟩
          32000 1000 8000).spect,
        row.length = (make_spect ⟨[0, 1000, 2000, 3000, 8000], [0], [[5], [1], [2], [3], [10]]⟩
          32000 1000 8000).timeBins.length)) :=
  ⟨⟨rfl, by decide⟩, claim_C9 ⟨[0, 1000, 2000, 3000, 8000], [0], [[5], [1], [2], [3], [10]]⟩
    32000 1000 8000 ⟨rfl, by decide⟩⟩

/-- C2 is false on the code: scipy's raw frequency axis is ascending, and
`make_spect` reverses it, so on this concrete input the returned
`freq_bins` is `[3000, 2000, 1000]` — strictly decreasing, not
increasing — and row 0 of the returned spectrogram is the row of the
highest retained frequency (the band row `[3]` of 3000 Hz), not the
lowest. -/
theorem claim_C2_counterexample :
    (make_spect ⟨[0, 1000, 2000, 3000, 8000], [0], [[5], [1], [2], [3], [10]]⟩
        32000 1000 8000).freqBins = [3000, 2000, 1000] ∧
    ¬ (make_spect ⟨[0, 1000, 2000, 3000, 8000], [0], [[5], [1], [2], [3], [10]]⟩
        32000 1000 8000).freqBins.Pairwise (· < ·) ∧
    (make_spect ⟨[0, 1000, 2000, 3000, 8000], [0], [[5], [1], [2], [3], [10]]⟩
        32000 1000 8000).spect = [[.pos 3], [.pos 2], [.pos 1]] := by
  have hfb : (make_spect ⟨[0, 1000, 2000, 3000, 8000], [0], [[5], [1], [2], [3], [10]]⟩
      32000 1000 8000).freqBins = [3000, 2000, 1000] := by
    with_unfolding_all rfl
  refine ⟨hfb, ?_, by with_unfolding_all rfl⟩
  rw [hfb]
  intro h
  have := List.rel_of_pairwise_cons h (show (2000 : ℚ) ∈ [2000, 1000] by simp)
  norm_num at this

/-- C2 (amended): on scipy's ascending raw frequency axis, the
`freq_bins` returned by `make_spect` is strictly *decreasing* and row 0
of the returned spectrogram corresponds to the *highest* retained
frequency; the filtered grid and the frequency axis are reversed
together, so row `i` of the spectrogram is always the (log-transformed)
raw row of frequency `freq_bins[i]`. -/
theorem claim_C2_amended (raw : RawSTFT) (sf lo hi : ℚ)
    (hsort : raw.freqs.Pairwise (· < ·)) (hlen : raw.grid.length = raw.freqs.length) :
    (make_spect raw sf lo hi).freqBins.Pairwise (· > ·) ∧
    (make_spect raw sf lo hi).freqBins =
      (((raw.freqs.zip raw.grid).filter (fun p => decide (lo ≤ p.1 ∧ p.1 < hi))).map
        (fun p => p.1)).reverse ∧
    (make_spect raw sf lo hi).spect =
      (((raw.freqs.zip raw.grid).filter (fun p => decide (lo ≤ p.1 ∧ p.1 < hi))).map
        (fun p => p.2.map log10)).reverse := by
  have hA := selIdx_nonzero_self raw.freqs (fun f => decide (lo ≤ f ∧ f < hi))
  have hB := selIdx_nonzero_zip raw.freqs raw.grid (fun f => decide (lo ≤ f ∧ f < hi)) hlen
  have hfst := zip_filter_fst raw.freqs raw.grid (fun f => decide (lo ≤ f ∧ f < hi)) hlen
  refine ⟨?_, ?_, ?_⟩
  · rw [make_spect_freqBins, hA, List.pairwise_reverse]
    exact hsort.filter _
  · rw [make_spect_freqBins, hA, hfst]
  · rw [make_spect_spect, hB, List.map_map]
    rfl

theorem claim_C2_amended_witness :
    (([0, 1000, 2000, 3000, 8000] : List ℚ).Pairwise (· < ·) ∧
      ([[5], [1], [2], [3], [10]] : List (List ℚ)).length =
        ([0, 1000, 2000, 3000, 8000] : List ℚ).length) ∧
    ((make_spect ⟨[0, 1000, 2000, 3000, 8000], [0], [[5], [1], [2], [3], [10]]⟩
        32000 1000 8000).freqBins.Pairwise (· > ·) ∧
      (make_spect ⟨[0, 1000, 2000, 3000, 8000], [0], [[5], [1], [2], [3], [10]]⟩
          32000 1000 8000).freqBins =
        (((([0, 1000, 2000, 3000, 8000] : List ℚ).zip
            ([[5], [1], [2], [3], [10]] : List (List ℚ))).filter
          (fun p => decide ((1000 : ℚ) ≤ p.1 ∧ p.1 < 8000))).map (fun p => p.1)).reverse ∧
      (make_spect ⟨[0, 1000, 2000, 3000, 8000], [0], [[5], [1], [2], [3], [10]]⟩
          32000 1000 8000).spect =
        (((([0, 1000, 2000, 3000, 8000] : List ℚ).zip
            ([[5], [1], [2], [3], [10]] : List (List ℚ))).filter
          (fun p => decide ((1000 : ℚ) ≤ p.1 ∧ p.1 < 8000))).map
          (fun p => p.2.map log10)).reverse) :=
  ⟨⟨by decide, rfl⟩, claim_C2_amended ⟨[0, 1000, 2000, 3000, 8000], [0], [[5], [1], [2], [3], [10]]⟩
    32000 1000 8000 (by decide) rfl⟩

/-- C5 is false on the code: `make_spect` performs no positivity check
and `np.log10` raises no error, so on a retained zero power value the
function returns an ordinary `song_spect` whose spectrogram contains
`-inf`; nothing is surfaced to the caller. -/
theorem claim_C5_counterexample :
    make_spect ⟨[1000], [0], [[0]]⟩ 32000 1000 8000 =
      ⟨[[.negInf]], [1000], [0], 32000⟩ ∧
    LogVal.negInf ∈ (make_spect ⟨[1000], [0], [[0]]⟩ 32000 1000 8000).spect.getD 0 [] := by
  constructor
  · with_unfolding_all rfl
  · rw [show (make_spect ⟨[1000], [0], [[0]]⟩ 32000 1000 8000).spect.getD 0 [] = [LogVal.negInf]
      by with_unfolding_all rfl]
    simp

/-- C5 (amended): `make_spect` never surfaces an error for zero or
negative retained power values; `np.log10` turns a zero into `-inf` and
a negative value into `NaN` (with only a `RuntimeWarning`), and the
returned spectrogram contains that value in the corresponding row. -/
theorem claim_C5_amended (raw : RawSTFT) (sf lo hi f : ℚ) (row : List ℚ) (q : ℚ)
    (hlen : raw.grid.length = raw.freqs.length)
    (hmem : (f, row) ∈ raw.freqs.zip raw.grid) (hlo : lo ≤ f) (hhi : f < hi)
    (hq : q ∈ row) (hq0 : q ≤ 0) :
    ∃ row' ∈ (make_spect raw sf lo hi).spect, LogVal.negInf ∈ row' ∨ LogVal.nan ∈ row' := by
  have hB := selIdx_nonzero_zip raw.freqs raw.grid (fun f => decide (lo ≤ f ∧ f < hi)) hlen
  refine ⟨row.map log10, ?_, ?_⟩
  · rw [make_spect_spect, hB, List.map_map, List.mem_reverse, List.mem_map]
    refine ⟨(f, row), ?_, rfl⟩
    exact List.mem_filter.mpr ⟨hmem, by simp [hlo, hhi]⟩
  · rcases lt_or_eq_of_le hq0 with hq' | hq'
    · right
      refine List.mem_map.mpr ⟨q, hq, ?_⟩
      rw [log10, if_neg (by linarith), if_neg (by linarith)]
    · left
      refine List.mem_map.mpr ⟨q, hq, ?_⟩
      rw [log10, if_neg (by simp [hq']), if_pos hq']

theorem claim_C5_amended_witness :
    (([[0]] : List (List ℚ)).length = ([1000] : List ℚ).length ∧
      ((1000 : ℚ), ([0] : List ℚ)) ∈ ([1000] : List ℚ).zip ([[0]] : List (List ℚ)) ∧
      (1000 : ℚ) ≤ 1000 ∧ (1000 : ℚ) < 8000 ∧ (0 : ℚ) ∈ ([0] : List ℚ) ∧ (0 : ℚ) ≤ 0) ∧
    (∃ row' ∈ (make_spect ⟨[1000], [0], [[0]]⟩ 32000 1000 8000).spect,
      LogVal.negInf ∈ row' ∨ LogVal.nan ∈ row') :=
  ⟨⟨rfl, by decide, by decide, by decide, by decide, by decide⟩,
    claim_C5_amended ⟨[1000], [0], [[0]]⟩ 32000 1000 8000 1000 [0] 0 rfl (by decide)
      (by decide) (by decide) (by decide) (by decide)⟩

/-! Claim C3: the per-segment width bookkeeping of `extract_syls`. -/

theorem pyClamp_le (n : ℕ) (i : ℤ) : pyClamp n i ≤ n := by
  rw [pyClamp]
  split_ifs <;> omega

theorem pySlice_length {α : Type} (xs : List α) (a b : ℤ) :
    (pySlice xs a b).length = pySliceLen xs.length a b := by
  rw [pySlice, pySliceLen, List.length_drop, List.length_take]
  have := pyClamp_le xs.length b
  omega

theorem pyClamp_coe (n m : ℕ) (h : m ≤ n) : pyClamp n (m : ℤ) = m := by
  rw [pyClamp]
  split_ifs <;> omega

/-- C3: for each extracted segment (with `onsetIndex ≤ offsetIndex <
columnCount`, the shape produced by the nearest-bin lookup on ordered
segments), `width_diff` is `syl_spect_width - (offsetIndex -
onsetIndex)`, `left_width = round(width_diff / 2)` and `right_width =
width_diff - left_width`; at most one boundary clamp applies, the
left-boundary check first: if `left_width > onsetIndex` the window is
left-clamped, else if `offsetIndex + right_width > columnCount` it is
right-clamped, else it is unclamped — and in the unclamped case every
row of the emitted syllable spectrogram has exactly `syl_spect_width`
columns. -/
theorem claim_C3 (cols on' off W : ℕ) (wd lw rw : ℤ)
    (h1 : on' ≤ off) (h2 : off < cols)
    (hwd : wd = (W : ℤ) - ((off : ℤ) - (on' : ℤ)))
    (hlw : lw = pyRoundHalf wd) (hrw : rw = wd - lw) :
    (pySliceLen cols (on' : ℤ) (off : ℤ) : ℤ) = (off : ℤ) - (on' : ℤ) ∧
    ((on' : ℤ) < lw → sylWindow cols on' off W = ((on' : ℤ), wd - (on' : ℤ))) ∧
    (¬ (on' : ℤ) < lw → (cols : ℤ) < (off : ℤ) + rw →
      sylWindow cols on' off W = (wd - ((cols : ℤ) - (off : ℤ)), (cols : ℤ) - (off : ℤ))) ∧
    (¬ (on' : ℤ) < lw → ¬ (cols : ℤ) < (off : ℤ) + rw →
      sylWindow cols on' off W = (lw, rw) ∧
      ∀ spect : List (List LogVal), (∀ row ∈ spect, row.length = cols) →
        ∀ row ∈ syl_slice spect cols on' off W, row.length = W) := by
  have hslice : (pySliceLen cols (on' : ℤ) (off : ℤ) : ℤ) = (off : ℤ) - (on' : ℤ) := by
    rw [pySliceLen, pyClamp_coe cols on' (by omega), pyClamp_coe cols off (by omega)]
    omega
  have hwd0 : (W : ℤ) - (pySliceLen cols (on' : ℤ) (off : ℤ) : ℤ) = wd := by
    rw [hslice, hwd]
  have hsw : sylWindow cols on' off W =
      (if (on' : ℤ) < lw then ((on' : ℤ), wd - (on' : ℤ))
       else if (cols : ℤ) < (off : ℤ) + rw then
        (wd - ((cols : ℤ) - (off : ℤ)), (cols : ℤ) - (off : ℤ))
       else (lw, rw)) := by
    rw [sylWindow, hwd0, ← hlw, ← hrw]
  refine ⟨hslice, ?_, ?_, ?_⟩
  · intro hL
    rw [hsw, if_pos hL]
  · intro hL hR
    rw [hsw, if_neg hL, if_pos hR]
  · intro hL hR
    have hswu : sylWindow cols on' off W = (lw, rw) := by
      rw [hsw, if_neg hL, if_neg hR]
    refine ⟨hswu, ?_⟩
    intro spect hrows row hrow
    rw [syl_slice, hswu] at hrow
    rw [List.mem_map] at hrow
    obtain ⟨orig, horig, rfl⟩ := hrow
    rw [pySlice_length, hrows orig horig]
    have hWnn : 0 ≤ (W : ℤ) := by omega
    rw [pySliceLen, pyClamp, pyClamp]
    split_ifs <;> omega

theorem claim_C3_witness :
    ((5 : ℕ) ≤ 7 ∧ (7 : ℕ) < 20 ∧ (4 : ℤ) = (6 : ℤ) - ((7 : ℤ) - (5 : ℤ)) ∧
      (2 : ℤ) = pyRoundHalf 4 ∧ (2 : ℤ) = 4 - 2) ∧
    ((pySliceLen 20 (5 : ℤ) (7 : ℤ) : ℤ) = (7 : ℤ) - (5 : ℤ) ∧
      ((5 : ℤ) < 2 → sylWindow 20 5 7 6 = ((5 : ℤ), 4 - (5 : ℤ))) ∧
      (¬ (5 : ℤ) < 2 → (20 : ℤ) < (7 : ℤ) + 2 →
        sylWindow 20 5 7 6 = (4 - ((20 : ℤ) - (7 : ℤ)), (20 : ℤ) - (7 : ℤ))) ∧
      (¬ (5 : ℤ) < 2 → ¬ (20 : ℤ) < (7 : ℤ) + 2 →
        sylWindow 20 5 7 6 = (2, 2) ∧
        ∀ spect : List (List LogVal), (∀ row ∈ spect, row.length = 20) →
          ∀ row ∈ syl_slice spect 20 5 7 6, row.length = 6)) :=
  ⟨⟨by decide, by decide, by decide, by decide, by decide⟩,
    claim_C3 20 5 7 6 4 2 2 (by decide) (by decide) (by decide) (by decide) (by decide)⟩

/-! Claims C7, C8 and C10: the `extract_syls` wrapper. -/

/-- C7: whenever the actual sampling frequency of the loaded recording
differs from `spect_params['samp_freq']`, `extract_syls` raises (for any
raw STFT, label record, `labels_to_use` and width), before any
spectrogram computation or extraction: the whole result is the error and
no partial output is produced. -/
theorem claim_C7 (raw : RawSTFT) (fs : ℚ) (sp : SpectParams) (nm : Notmat)
    (arg : LabelsArg) (W : ℕ) (h : fs ≠ sp.samp_freq) :
    extract_syls raw fs sp nm arg W = .error .sampFreqMismatch := by
  rw [extract_syls, if_pos h]

theorem claim_C7_witness :
    ((44100 : ℚ) ≠ (SpectParams.mk 512 32 (1000, 8000) 32000).samp_freq) ∧
    extract_syls ⟨[1500], [0, 1], [[1, 2]]⟩ 44100 ⟨512, 32, (1000, 8000), 32000⟩
      ⟨['a'], [0], [1]⟩ (.str ['a']) 2 = .error .sampFreqMismatch :=
  ⟨by norm_num, claim_C7 ⟨[1500], [0, 1], [[1, 2]]⟩ 44100 ⟨512, 32, (1000, 8000), 32000⟩
    ⟨['a'], [0], [1]⟩ (.str ['a']) 2 (by norm_num)⟩

theorem argminAbs_isSome (tb : List ℚ) (ht : tb ≠ []) (t : ℚ) : (argminAbs tb t).isSome := by
  cases tb with
  | nil => exact absurd rfl ht
  | cons x xs => rfl

/-- After the sampling-frequency check passes and the nearest-bin lookup
succeeds, `extract_syls` is the extraction loop over the labels. -/
theorem extract_syls_eq_loop (raw : RawSTFT) (fs : ℚ) (sp : SpectParams) (nm : Notmat)
    (arg : LabelsArg) (W : ℕ) (hfs : fs = sp.samp_freq)
    {onTB offTB : List ℕ}
    (hON : mapOpt (argminAbs raw.times) (nm.onsets.map (fun o => o / 1000)) = some onTB)
    (hOFF : mapOpt (argminAbs raw.times) (nm.offsets.map (fun o => o / 1000)) = some offTB) :
    extract_syls raw fs sp nm arg W =
      extractLoop (make_spect raw fs sp.freq_cutoffs.1 sp.freq_cutoffs.2).spect
        raw.times.length onTB offTB
        (decide (normalize_labels_arg arg = LabelsArg.str ['a', 'l', 'l']))
        (labels_coll (normalize_labels_arg arg)) W 0 nm.labels := by
  simp only [extract_syls]
  rw [if_neg (by simp [hfs]), make_spect_timeBins, hON, hOFF]

theorem extractLoop_all (spect : List (List LogVal)) (cols : ℕ) (onTB offTB : List ℕ)
    (cs : List Char) (W : ℕ) :
    ∀ (labels : List Char) (ind : ℕ),
      ind + labels.length ≤ onTB.length → ind + labels.length ≤ offTB.length →
      ∃ spects, extractLoop spect cols onTB offTB true cs W ind labels =
        .ok (spects, labels.map (fun _ => none)) ∧ spects.length = labels.length := by
  intro labels
  induction labels with
  | nil => exact fun ind _ _ => ⟨[], rfl, rfl⟩
  | cons label rest ih =>
      intro ind h1 h2
      obtain ⟨spects, hloop, hlen⟩ := ih (ind + 1) (by simp at h1 ⊢; omega)
        (by simp at h2 ⊢; omega)
      have hON : onTB[ind]? = some (onTB.getD ind 0) := by
        have hi : ind < onTB.length := by simp at h1; omega
        rw [List.getD_eq_getElem _ _ hi, List.getElem?_eq_getElem hi]
      have hOFF : offTB[ind]? = some (offTB.getD ind 0) := by
        have hi : ind < offTB.length := by simp at h2; omega
        rw [List.getD_eq_getElem _ _ hi, List.getElem?_eq_getElem hi]
      rw [extractLoop, if_neg (by simp), hON, hOFF, hloop]
      exact ⟨syl_slice spect cols (onTB.getD ind 0) (offTB.getD ind 0) W :: spects,
        by simp, by simp [hlen]⟩

theorem extractLoop_filter (spect : List (List LogVal)) (cols : ℕ) (onTB offTB : List ℕ)
    (cs : List Char) (W : ℕ) :
    ∀ (labels : List Char) (ind : ℕ),
      ind + labels.length ≤ onTB.length → ind + labels.length ≤ offTB.length →
      ∃ spects, extractLoop spect cols onTB offTB false cs W ind labels =
        .ok (spects, (labels.filter (fun l => decide (l ∈ cs))).map (fun l => some l)) ∧
        spects.length = (labels.filter (fun l => decide (l ∈ cs))).length := by
  intro labels
  induction labels with
  | nil => exact fun ind _ _ => ⟨[], rfl, rfl⟩
  | cons label rest ih =>
      intro ind h1 h2
      obtain ⟨spects, hloop, hlen⟩ := ih (ind + 1) (by simp at h1 ⊢; omega)
        (by simp at h2 ⊢; omega)
      by_cases hmem : label ∈ cs
      · have hON : onTB[ind]? = some (onTB.getD ind 0) := by
          have hi : ind < onTB.length := by simp at h1; omega
          rw [List.getD_eq_getElem _ _ hi, List.getElem?_eq_getElem hi]
        have hOFF : offTB[ind]? = some (offTB.getD ind 0) := by
          have hi : ind < offTB.length := by simp at h2; omega
          rw [List.getD_eq_getElem _ _ hi, List.getElem?_eq_getElem hi]
        rw [extractLoop, if_neg (by simp [hmem]), hON, hOFF, hloop]
        refine ⟨syl_slice spect cols (onTB.getD ind 0) (offTB.getD ind 0) W :: spects, ?_, ?_⟩
        · simp [List.filter_cons, hmem]
        · simp [List.filter_cons, hmem, hlen]
      · rw [extractLoop, if_pos ⟨rfl, hmem⟩]
        refine ⟨spects, ?_, ?_⟩
        · rw [hloop]
          simp [List.filter_cons, hmem]
        · simp [List.filter_cons, hmem, hlen]

/-- C8: in `extract_syls`, the sentinel `'all'` produces one syllable
spectrogram per input segment with its label reported as `none`;
otherwise a segment is extracted if and only if its label character is a
member of `labels_to_use`, and the output order follows segment order
(the reported labels are exactly the filtered labels, in order, and
there is one spectrogram per reported label). -/
theorem claim_C8 (raw : RawSTFT) (fs : ℚ) (sp : SpectParams) (nm : Notmat) (W : ℕ)
    (hfs : fs = sp.samp_freq) (ht : raw.times ≠ [])
    (hlen1 : nm.labels.length ≤ nm.onsets.length)
    (hlen2 : nm.labels.length ≤ nm.offsets.length) :
    ((extract_syls raw fs sp nm (.str ['a', 'l', 'l']) W).map
        (fun r => (r.1.length, r.2))) =
      .ok (nm.labels.length, nm.labels.map (fun _ => none)) ∧
    (∀ cs : List Char, cs ≠ ['a', 'l', 'l'] →
      ((extract_syls raw fs sp nm (.str cs) W).map (fun r => (r.1.length, r.2))) =
        .ok ((nm.labels.filter (fun l => decide (l ∈ cs))).length,
          (nm.labels.filter (fun l => decide (l ∈ cs))).map (fun l => some l))) := by
  obtain ⟨onTB, hON, hONlen⟩ := @mapOpt_isSome ℚ ℕ (argminAbs raw.times)
    (nm.onsets.map (fun o => o / 1000)) (fun x _ => argminAbs_isSome raw.times ht x)
  obtain ⟨offTB, hOFF, hOFFlen⟩ := @mapOpt_isSome ℚ ℕ (argminAbs raw.times)
    (nm.offsets.map (fun o => o / 1000)) (fun x _ => argminAbs_isSome raw.times ht x)
  have hONn : nm.labels.length ≤ onTB.length := by
    rw [hONlen, List.length_map]
    exact hlen1
  have hOFFn : nm.labels.length ≤ offTB.length := by
    rw [hOFFlen, List.length_map]
    exact hlen2
  constructor
  · rw [extract_syls_eq_loop raw fs sp nm (.str ['a', 'l', 'l']) W hfs hON hOFF]
    rw [show normalize_labels_arg (.str ['a', 'l', 'l']) = LabelsArg.str ['a', 'l', 'l'] from rfl]
    rw [show decide (LabelsArg.str ['a', 'l', 'l'] = LabelsArg.str ['a', 'l', 'l']) = true
      by simp]
    obtain ⟨spects, hloop, hlen⟩ := extractLoop_all
      (make_spect raw fs sp.freq_cutoffs.1 sp.freq_cutoffs.2).spect raw.times.length
      onTB offTB (labels_coll (LabelsArg.str ['a', 'l', 'l'])) W nm.labels 0
      (by omega) (by omega)
    rw [hloop]
    simp [Except.map, hlen]
  · intro cs hcs
    rw [extract_syls_eq_loop raw fs sp nm (.str cs) W hfs hON hOFF]
    rw [show normalize_labels_arg (.str cs) = LabelsArg.charList cs by
      rw [normalize_labels_arg, if_neg hcs]]
    rw [show decide (LabelsArg.charList cs = LabelsArg.str ['a', 'l', 'l']) = false by simp]
    rw [show labels_coll (LabelsArg.charList cs) = cs from rfl]
    obtain ⟨spects, hloop, hlen⟩ := extractLoop_filter
      (make_spect raw fs sp.freq_cutoffs.1 sp.freq_cutoffs.2).spect raw.times.length
      onTB offTB cs W nm.labels 0 (by omega) (by omega)
    rw [hloop]
    simp [Except.map, hlen]

theorem claim_C8_witness :
    ((32 : ℚ) = (SpectParams.mk 512 32 (1000, 8000) 32).samp_freq ∧
      ([0, 1, 2, 3] : List ℚ) ≠ [] ∧
      (['a', 'x', 'b'] : List Char).length ≤ ([0, 1000, 2000] : List ℚ).length ∧
      (['a', 'x', 'b'] : List Char).length ≤ ([1000, 2000, 3000] : List ℚ).length) ∧
    (((extract_syls ⟨[1500], [0, 1, 2, 3], [[1, 2, 3, 4]]⟩ 32 ⟨512, 32, (1000, 8000), 32⟩
          ⟨['a', 'x', 'b'], [0, 1000, 2000], [1000, 2000, 3000]⟩ (.str ['a', 'l', 'l']) 2).map
        (fun r => (r.1.length, r.2))) =
        .ok ((['a', 'x', 'b'] : List Char).length,
          (['a', 'x', 'b'] : List Char).map (fun _ => none)) ∧
      (∀ cs : List Char, cs ≠ ['a', 'l', 'l'] →
        ((extract_syls ⟨[1500], [0, 1, 2, 3], [[1, 2, 3, 4]]⟩ 32 ⟨512, 32, (1000, 8000), 32⟩
            ⟨['a', 'x', 'b'], [0, 1000, 2000], [1000, 2000, 3000]⟩ (.str cs) 2).map
          (fun r => (r.1.length, r.2))) =
          .ok (((['a', 'x', 'b'] : List Char).filter (fun l => decide (l ∈ cs))).length,
            ((['a', 'x', 'b'] : List Char).filter (fun l => decide (l ∈ cs))).map
              (fun l => some l)))) :=
  ⟨⟨rfl, by decide, by decide, by decide⟩,
    claim_C8 ⟨[1500], [0, 1, 2, 3], [[1, 2, 3, 4]]⟩ 32 ⟨512, 32, (1000, 8000), 32⟩
      ⟨['a', 'x', 'b'], [0, 1000, 2000], [1000, 2000, 3000]⟩ 2 rfl (by decide)
      (by decide) (by decide)⟩

/-- C10: when `labels_to_use` is a list of characters rather than a
string, no error is raised — the `ValueError` in the non-string branch
of lines 150-154 is constructed but never raised — and execution
proceeds using the list directly as the membership collection for label
filtering; this holds even for the list `['a','l','l']`, which is not
equal to the string sentinel `'all'`. -/
theorem claim_C10 (raw : RawSTFT) (fs : ℚ) (sp : SpectParams) (nm : Notmat) (W : ℕ)
    (cs : List Char) (hfs : fs = sp.samp_freq) (ht : raw.times ≠ [])
    (hlen1 : nm.labels.length ≤ nm.onsets.length)
    (hlen2 : nm.labels.length ≤ nm.offsets.length) :
    normalize_labels_arg (.charList cs) = .charList cs ∧
    ((extract_syls raw fs sp nm (.charList cs) W).map (fun r => (r.1.length, r.2))) =
      .ok ((nm.labels.filter (fun l => decide (l ∈ cs))).length,
        (nm.labels.filter (fun l => decide (l ∈ cs))).map (fun l => some l)) := by
  obtain ⟨onTB, hON, hONlen⟩ := @mapOpt_isSome ℚ ℕ (argminAbs raw.times)
    (nm.onsets.map (fun o => o / 1000)) (fun x _ => argminAbs_isSome raw.times ht x)
  obtain ⟨offTB, hOFF, hOFFlen⟩ := @mapOpt_isSome ℚ ℕ (argminAbs raw.times)
    (nm.offsets.map (fun o => o / 1000)) (fun x _ => argminAbs_isSome raw.times ht x)
  have hONn : nm.labels.length ≤ onTB.length := by
    rw [hONlen, List.length_map]
    exact hlen1
  have hOFFn : nm.labels.length ≤ offTB.length := by
    rw [hOFFlen, List.length_map]
    exact hlen2
  refine ⟨rfl, ?_⟩
  rw [extract_syls_eq_loop raw fs sp nm (.charList cs) W hfs hON hOFF]
  rw [show normalize_labels_arg (.charList cs) = LabelsArg.charList cs from rfl]
  rw [show decide (LabelsArg.charList cs = LabelsArg.str ['a', 'l', 'l']) = false by simp]
  rw [show labels_coll (LabelsArg.charList cs) = cs from rfl]
  obtain ⟨spects, hloop, hlen⟩ := extractLoop_filter
    (make_spect raw fs sp.freq_cutoffs.1 sp.freq_cutoffs.2).spect raw.times.length
    onTB offTB cs W nm.labels 0 (by omega) (by omega)
  rw [hloop]
  simp [Except.map, hlen]

theorem claim_C10_witness :
    ((32 : ℚ) = (SpectParams.mk 512 32 (1000, 8000) 32).samp_freq ∧
      ([0, 1, 2, 3] : List ℚ) ≠ [] ∧
      (['a', 'x', 'b'] : List Char).length ≤ ([0, 1000, 2000] : List ℚ).length ∧
      (['a', 'x', 'b'] : List Char).length ≤ ([1000, 2000, 3000] : List ℚ).length) ∧
    (normalize_labels_arg (.charList ['a', 'l', 'l']) = .charList ['a', 'l', 'l'] ∧
      ((extract_syls ⟨[1500], [0, 1, 2, 3], [[1, 2, 3, 4]]⟩ 32 ⟨512, 32, (1000, 8000), 32⟩
          ⟨['a', 'x', 'b'], [0, 1000, 2000], [1000, 2000, 3000]⟩ (.charList ['a', 'l', 'l']) 2).map
        (fun r => (r.1.length, r.2))) =
        .ok (((['a', 'x', 'b'] : List Char).filter
            (fun l => decide (l ∈ (['a', 'l', 'l'] : List Char)))).length,
          ((['a', 'x', 'b'] : List Char).filter
            (fun l => decide (l ∈ (['a', 'l', 'l'] : List Char)))).map (fun l => some l))) :=
  ⟨⟨rfl, by decide, by decide, by decide⟩,
    claim_C10 ⟨[1500], [0, 1, 2, 3], [[1, 2, 3, 4]]⟩ 32 ⟨512, 32, (1000, 8000), 32⟩
      ⟨['a', 'x', 'b'], [0, 1000, 2000], [1000, 2000, 3000]⟩ 2 ['a', 'l', 'l'] rfl (by decide)
      (by decide) (by decide)⟩

end HVC
